import Mathlib

/-!
Verification of the functional channel-pipeline library.

A finite channel history is embedded as the `List` of elements that travel
over the transport, in delivery order.  Every single-producer stage of the
Go source reads its input to exhaustion in arrival order and writes its
results in the same order, so such a stage denotes a function on these
lists; each definition below mirrors the loop structure of the Go function
it embeds.  The fan-out cloner and the cancellable generator are genuinely
concurrent, and are embedded as explicit transition systems further down.
-/

namespace Functional

/-- Embedding of channel.Map: the producer task reads each element `t` of the
input in order, sends `f t`, and closes the output when the input is
exhausted. -/
def Map {T U : Type} : List T → (T → U) → List U
  | [], _ => []
  | t :: ts, f => f t :: Map ts f

/-- Embedding of channel.FromSlice: the producer task sends every slice
element in order and then closes, so the channel history is exactly the
slice. -/
def FromSlice {T : Type} : List T → List T
  | [] => []
  | t :: ts => t :: FromSlice ts

/-- Loop of channel.ToSlice: `slice = append(slice, t)` for each received
element. -/
def toSliceLoop {T : Type} (acc : List T) : List T → List T
  | [] => acc
  | t :: ts => toSliceLoop (acc ++ [t]) ts

/-- Embedding of channel.ToSlice: drain the channel, appending every element
to an initially empty slice. -/
def ToSlice {T : Type} (channel : List T) : List T :=
  toSliceLoop [] channel

/-- Embedding of the Pair struct produced by channel.Zip. -/
structure Pair (T U : Type) where
  fst : T
  snd : U
deriving DecidableEq, Repr

/-- Loop of channel.Zip: receive one element from each input; while both
receives succeed, emit the pair and repeat; as soon as either side is
exhausted, close the output (the element read from the other side in the
final round is discarded). -/
def zipLoop {T U : Type} : List T → List U → List (Pair T U)
  | t :: ts, u :: us => Pair.mk t u :: zipLoop ts us
  | _, _ => []

/-- Embedding of channel.Zip. -/
def Zip {T U : Type} (chan1 : List T) (chan2 : List U) : List (Pair T U) :=
  zipLoop chan1 chan2

/-- Loop of channel.Limit with Go's int64 `count`/`max`: for each received
element, if `count < max` forward it and increment `count`, otherwise break
(the element just received is dropped).  The result records the forwarded
elements together with the number of elements consumed from the input. -/
def limitLoop {T : Type} (max : Int) (count : Int) : List T → List T × Nat
  | [] => ([], 0)
  | t :: ts =>
    if count < max then
      let r := limitLoop max (count + 1) ts
      (t :: r.1, r.2 + 1)
    else
      ([], 1)

/-- Embedding of channel.Limit, starting with `count = 0`.  The first
component is the output history, the second the number of elements the
stage consumed from its input. -/
def Limit {T : Type} (channel : List T) (max : Int) : List T × Nat :=
  limitLoop max 0 channel

/-- Loop shared by channel.Partition and slice.Partition (the two Go
functions have identical element logic): per received element `t`, if
`count == size` the current window is emitted and reset, then `t` is
appended to the window and `count` incremented; after input exhaustion a
non-empty window is emitted.  Go's `size` and `count` are ints; the claims
only concern `size ≥ 1` and `count` stays non-negative, so both are

embedded as `Nat`. -/
def partitionLoop {T : Type} (size : Nat) : List T → Nat → List T → List (List T)
  | [], count, window => if 0 < count then [window] else []
  | t :: ts, count, window =>
    if count = size then
      window :: partitionLoop size ts 1 [t]
    else
      partitionLoop size ts (count + 1) (window ++ [t])

/-- Embedding of channel.Partition (channel.go lines 320-340). -/
def Partition {T : Type} (channel : List T) (size : Nat) : List (List T) :=
  partitionLoop size channel 0 []

/-- Embedding of slice.Partition (slice.go lines 125-142); the element loop
is line-for-line the same as channel.Partition. -/
def slicePartition {T : Type} (slice : List T) (size : Nat) : List (List T) :=
  partitionLoop size slice 0 []

/-- Specification-side windowing, for comparison with Partition: split a
list into consecutive chunks of `s + 1` elements (so `s + 1` plays the
role of `size`, making the chunk size positive by construction). -/
def chunksSpec {T : Type} (s : Nat) : List T → List (List T)
  | [] => []
  | t :: ts => (t :: ts.take s) :: chunksSpec s (ts.drop s)
termination_by l => l.length
decreasing_by
  simp only [List.length_drop, List.length_cons]
  omega

/-- Body of channel.FoldRight.  The Go function reads from the shared
channel inside a loop whose body recursively calls FoldRight on the same
channel, so the embedding passes the unread remainder of the channel
around explicitly: the result is the accumulated value paired with the
elements still unread.  `fuel` is only a termination bound for Lean; the
lemma foldRightGo_spec shows that `channel.length` fuel is always enough,
so the bound never alters the modelled behaviour.  One round of
`fuel = n + 1` is one iteration of the Go `for t := range channel` loop:
read `t`, recursively fold the remainder with a fresh accumulator `u`,
set `result = f t inner`, and continue the loop on whatever the recursive
call left unread. -/
def foldRightGo {T U : Type} (f : T → U → U) (u : U) :
    Nat → U → List T → U × List T
  | 0, result, channel => (result, channel)
  | _ + 1, result, [] => (result, [])
  | fuel + 1, _, t :: ts =>
    let inner := foldRightGo f u fuel u ts
    foldRightGo f u fuel (f t inner.1) inner.2

/-- Embedding of channel.FoldRight (channel.go lines 52-58): run the
read-and-recurse loop starting from `result = u` on the whole channel. -/
def FoldRight {T U : Type} (channel : List T) (f : T → U → U) (u : U) : U :=
  (foldRightGo f u channel.length u channel).1

/-- Embedding of slice.FoldRight (slice.go lines 44-50): the loop walks the
indices from `len(slice) - 1` down to `0`, updating
`result = f(slice[i], result)`; walking the indices downward is a left
fold over the reversed slice. -/
def sliceFoldRight {T U : Type} (slice : List T) (f : T → U → U) (u : U) : U :=
  slice.reverse.foldl (fun result t => f t result) u

/-- Observable behaviour of channel.Sorted (channel.go lines 128-144): the
stage buffers its whole input, sorts the buffer in place with
`sort.Slice(buf, buf[i] < buf[j])`, and emits the buffer.  Go's sort
guarantees exactly that the final buffer is a permutation of the input
pairwise free of inversions (no later element is `<` an earlier one); the
permutation chosen among ties is unspecified, so the stage is embedded as
this relation between input history and output history rather than as one
arbitrarily chosen sorting algorithm. -/
def SortedRun {T : Type} [LinearOrder T] (input output : List T) : Prop :=
  output.Perm input ∧ output.Pairwise (fun a b => ¬ b < a)

/-- Executable realization of SortedRun (insertion sort produces one of the
permitted outputs), showing the relation is total on inputs. -/
def sortedImpl {T : Type} [LinearOrder T] (input : List T) : List T :=
  input.insertionSort (fun a b => a ≤ b)

/-- Model of the pool coordinator shared by ParallelMap and ParallelFilter
(the NumCPU-pool variants): the spawned task reads `concurrency` (the Go
code calls `runtime.NumCPU()`, an externally provided parallelism count,
once at pool creation), then the loop `for i := 0; i < concurrency; i++`
spawns one worker per iteration; every input element is received by
exactly one worker.  `assign` abstracts the scheduler's choice of which
worker receives the element at each input position. -/
structure PoolRun (T : Type) where
  concurrency : Nat
  input : List T
  assign : Nat → Nat

/-- Worker tasks spawned by the pool-creation loop, one per iteration. -/
def PoolRun.workers {T : Type} (r : PoolRun T) : List Nat :=
  List.range r.concurrency

/-- Elements of the shared input channel received by worker `w`, in arrival
order (the transport delivers each element to exactly one worker). -/
def PoolRun.workerInput {T : Type} (r : PoolRun T) (w : Nat) : List T :=
  (r.input.enum.filter (fun p => r.assign p.1 = w)).map Prod.snd

/-- Values sent to the shared output by worker `w` of ParallelMap: the
worker loop applies `f` to each element it receives. -/
def mapWorkerOutput {T U : Type} (r : PoolRun T) (f : T → U) (w : Nat) : List U :=
  (r.workerInput w).map f

/-- Values sent to the shared output by worker `w` of ParallelFilter: the
worker loop forwards each received element that satisfies `p`. -/
def filterWorkerOutput {T : Type} (r : PoolRun T) (p : T → Bool) (w : Nat) : List T :=
  (r.workerInput w).filter p

/-!
Transition-system embedding of Clone (the fan-out cloner).

The main task of `Clone(channel, numClones)` loops over the source: for
each element `t` read (tagged with the running sequence number `count`)
it spawns, for every clone index `i`, one delivery goroutine carrying
`(i, count, t)`.  A delivery goroutine spins on the one-slot ticket
channel `orders[i]` until the ticket equals its own sequence number, then
sends `t` on `clones[i]` and advances the ticket.  The state below records
the read position, the set of spawned-but-not-completed delivery tasks,
the per-clone tickets, and the history of elements each clone's consumer
has received.  Interleaving of the main task, the delivery tasks and
the `numClones` independent consumers is captured by the step relation.
-/

/-- Global state of one run of Clone over source `src` with `n` clones. -/
structure CloneState (T : Type) where
  readCount : Nat
  pending : List (Nat × Nat × T)
  tickets : List Nat
  delivered : List (List T)
deriving DecidableEq

/-- One interleaved step of the Clone system: either the main task reads
the next source element and spawns a delivery task per clone, or one
delivery task whose sequence number matches its clone's ticket completes
(its send pairs with a consumer receive) and advances the ticket. -/
inductive CloneStep {T : Type} [DecidableEq T] (src : List T) (n : Nat) :
    CloneState T → CloneState T → Prop
  | read (s : CloneState T) (h : s.readCount < src.length) :
      CloneStep src n s
        ⟨s.readCount + 1,
         s.pending ++ (List.range n).map (fun i => (i, s.readCount, src.get ⟨s.readCount, h⟩)),
         s.tickets,
         s.delivered⟩
  | deliver (s : CloneState T) (i seq : Nat) (x : T)
      (hi : i < n)
      (hmem : (i, seq, x) ∈ s.pending)
      (hticket : s.tickets.getD i 0 = seq) :
      CloneStep src n s
        ⟨s.readCount,
         s.pending.erase (i, seq, x),
         s.tickets.set i (seq + 1),
         s.delivered.set i (s.delivered.getD i [] ++ [x])⟩

/-- Initial Clone state: nothing read, every ticket holder primed with 0,
every clone's consumer history empty. -/
def initClone (T : Type) (n : Nat) : CloneState T :=
  ⟨0, [], List.replicate n 0, List.replicate n []⟩

/-- Reachability of a Clone state from the initial state by any
interleaving of the tasks. -/
def CloneReachable {T : Type} [DecidableEq T] (src : List T) (n : Nat)
    (s : CloneState T) : Prop :=
  Relation.ReflTransGen (CloneStep src n) (initClone T n) s

/-- Inductive invariant of the Clone system. -/
def CloneInv {T : Type} (src : List T) (n : Nat) (s : CloneState T) : Prop :=
  s.tickets.length = n ∧
  s.delivered.length = n ∧
  s.readCount ≤ src.length ∧
  (∀ i, i < n → s.tickets.getD i 0 ≤ s.readCount) ∧
  (∀ i, i < n → s.delivered.getD i [] = src.take (s.tickets.getD i 0)) ∧
  (∀ p ∈ s.pending,
    p.1 < n ∧ p.2.1 < s.readCount ∧ s.tickets.getD p.1 0 ≤ p.2.1 ∧
      src[p.2.1]? = some p.2.2) ∧
  (∀ i, i < n → ∀ seq, seq < s.readCount → s.tickets.getD i 0 ≤ seq →
    ∃ x, src[seq]? = some x ∧ (i, seq, x) ∈ s.pending) ∧
  (s.pending.map (fun p => (p.1, p.2.1))).Nodup

/-- Statement of claim C1 as written: in every reachable state of
`Clone(src, n)`, if some clone `j` has received `k + 1` elements then
every clone `i` has already received at least `k` elements (no clone
races ahead of another). -/
def CloneLockstep {T : Type} [DecidableEq T] (src : List T) (n : Nat) : Prop :=
  ∀ s, CloneReachable src n s → ∀ i j, i < n → j < n →
    ∀ k, k + 1 ≤ (s.delivered.getD j []).length → k ≤ (s.delivered.getD i []).length

/-- Fully synchronized intermediate state of the Clone system: the first
`m` source elements have been read and delivered to every clone. -/
def cloneStateAt (T : Type) (src : List T) (n m : Nat) : CloneState T :=
  ⟨m, [], List.replicate n m, List.replicate n (src.take m)⟩

/-!
Transition-system embedding of Generate and its stop function.

The generator goroutine loops: load the atomic flag; if true, produce a
value and block sending it on the unbuffered output channel; if false,
close the channel and exit.  A `stop` call stores false into the flag and
then performs exactly one receive on the output channel, which completes
either by pairing with a blocked send or by observing the closed channel.
A downstream consumer may also receive (pairing with a blocked send) at
any time.  The state records the flag, the generator task's position, and
the position of up to two stop calls (`stop2 = none` embeds a run in
which stop is called exactly once). -/

/-- Position of the generator goroutine: about to load the flag, blocked
in a send, or exited after closing the channel. -/
inductive GenPC : Type
  | check
  | send
  | closed
deriving DecidableEq

/-- Position of one stop call: not yet past its flag store, blocked in its
single receive, or returned. -/
inductive StopPC : Type
  | idle
  | recv
  | returned
deriving DecidableEq

/-- Global state of a Generate run with one or two stop calls. -/
structure GenState where
  flag : Bool
  gen : GenPC
  stop1 : StopPC
  stop2 : Option StopPC
deriving DecidableEq

/-- One interleaved step of the Generate system. -/
inductive GenStep : GenState → GenState → Prop
  | load (s : GenState) (h : s.gen = GenPC.check) :
      GenStep s ⟨s.flag, if s.flag then GenPC.send else GenPC.closed, s.stop1, s.stop2⟩
  | store1 (s : GenState) (h : s.stop1 = StopPC.idle) :
      GenStep s ⟨false, s.gen, StopPC.recv, s.stop2⟩
  | pair1 (s : GenState) (hg : s.gen = GenPC.send) (h : s.stop1 = StopPC.recv) :
      GenStep s ⟨s.flag, GenPC.check, StopPC.returned, s.stop2⟩
  | closed1 (s : GenState) (hg : s.gen = GenPC.closed) (h : s.stop1 = StopPC.recv) :
      GenStep s ⟨s.flag, s.gen, StopPC.returned, s.stop2⟩
  | store2 (s : GenState) (h : s.stop2 = some StopPC.idle) :
      GenStep s ⟨false, s.gen, s.stop1, some StopPC.recv⟩
  | pair2 (s : GenState) (hg : s.gen = GenPC.send) (h : s.stop2 = some StopPC.recv) :
      GenStep s ⟨s.flag, GenPC.check, s.stop1, some StopPC.returned⟩
  | closed2 (s : GenState) (hg : s.gen = GenPC.closed) (h : s.stop2 = some StopPC.recv) :
      GenStep s ⟨s.flag, s.gen, s.stop1, some StopPC.returned⟩
  | consume (s : GenState) (hg : s.gen = GenPC.send) :
      GenStep s ⟨s.flag, GenPC.check, s.stop1, s.stop2⟩

/-- Initial Generate state: flag primed to true, generator about to load
it, first stop call not yet started; `o` is `none` when stop will be
called exactly once, `some StopPC.idle` when it will be called twice. -/
def genInit (o : Option StopPC) : GenState :=
  ⟨true, GenPC.check, StopPC.idle, o⟩

/-- Reachability of a Generate state under any interleaving. -/
def GenReachable (o : Option StopPC) (s : GenState) : Prop :=
  Relation.ReflTransGen GenStep (genInit o) s

/-- Inductive invariant of the Generate system: once any stop call has
stored to the flag it stays false, and after a stop call has returned the
generator can never again be blocked in a send. -/
def GenInv (s : GenState) : Prop :=
  (s.stop1 ≠ StopPC.idle → s.flag = false) ∧
  ((s.stop2 = some StopPC.recv ∨ s.stop2 = some StopPC.returned) → s.flag = false) ∧
  (s.stop1 = StopPC.returned → s.gen ≠ GenPC.send) ∧
  (s.stop2 = some StopPC.returned → s.gen ≠ GenPC.send)

/-- Weight of one stop call in the termination measure. -/
def stopWeight : StopPC → Nat
  | StopPC.idle => 5
  | StopPC.recv => 4
  | StopPC.returned => 0

/-- Weight of the generator position in the termination measure. -/
def genWeight : GenPC → Nat
  | GenPC.send => 3
  | GenPC.check => 2
  | GenPC.closed => 0

/-- Termination measure for the Generate system: once the flag is false,
every step strictly decreases it, so all executions are finite. -/
def genMeasure (s : GenState) : Nat :=
  stopWeight s.stop1 + (s.stop2.map stopWeight).getD 0 + genWeight s.gen

/-! Helper lemmas about the sequential combinators. -/

theorem toSliceLoop_eq {T : Type} : ∀ (l acc : List T), toSliceLoop acc l = acc ++ l := by
  intro l
  induction l with
  | nil => intro acc; simp [toSliceLoop]
  | cons t ts ih => intro acc; simp [toSliceLoop, ih]

theorem ToSlice_eq {T : Type} (l : List T) : ToSlice l = l := by
  simp [ToSlice, toSliceLoop_eq]

theorem Map_eq_map {T U : Type} (f : T → U) : ∀ l : List T, Map l f = l.map f := by
  intro l
  induction l with
  | nil => simp [Map]
  | cons t ts ih => simp [Map, ih]

theorem FromSlice_eq {T : Type} : ∀ l : List T, FromSlice l = l := by
  intro l
  induction l with
  | nil => simp [FromSlice]
  | cons t ts ih => simp [FromSlice, ih]

theorem zipLoop_length {T U : Type} :
    ∀ (a : List T) (b : List U), (zipLoop a b).length = min a.length b.length := by
  intro a
  induction a with
  | nil => intro b; cases b <;> simp [zipLoop]
  | cons t ts ih =>
    intro b
    cases b with
    | nil => simp [zipLoop]
    | cons u us => simp [zipLoop, ih, Nat.succ_min_succ]

theorem zipLoop_getElem? {T U : Type} :
    ∀ (a : List T) (b : List U) (i : Nat) (x : T) (y : U),
      a[i]? = some x → b[i]? = some y →
      (zipLoop a b)[i]? = some (Pair.mk x y) := by
  intro a
  induction a with
  | nil => intro b i x y hx; simp at hx
  | cons t ts ih =>
    intro b i x y hx hy
    cases b with
    | nil => simp at hy
    | cons u us =>
      cases i with
      | zero =>
        simp at hx hy
        simp [zipLoop, hx, hy]
      | succ j =>
        simp at hx hy
        simpa [zipLoop] using ih us j x y hx hy

theorem limitLoop_spec {T : Type} :
    ∀ (l : List T) (max count : Int), count ≤ max → max - count < l.length →
      limitLoop max count l = (l.take (max - count).toNat, (max - count).toNat + 1) := by
  intro l
  induction l with
  | nil =>
    intro max count h1 h2
    simp at h2
    omega
  | cons t ts ih =>
    intro max count h1 h2
    by_cases hlt : count < max
    · have h1' : count + 1 ≤ max := hlt
      have h2' : max - (count + 1) < ts.length := by
        simp at h2
        omega
      have hk : (max - count).toNat = (max - (count + 1)).toNat + 1 := by omega
      simp only [limitLoop, if_pos hlt, ih max (count + 1) h1' h2', hk, List.take_succ_cons]
    · have hcm : count = max := le_antisymm h1 (not_lt.mp hlt)
      have h0 : (max - count).toNat = 0 := by omega
      simp [limitLoop, hlt, h0]

theorem foldRightGo_nil {T U : Type} (f : T → U → U) (u : U) :
    ∀ (fuel : Nat) (acc : U), foldRightGo f u fuel acc [] = (acc, []) := by
  intro fuel acc
  cases fuel <;> simp [foldRightGo]

theorem foldRightGo_spec {T U : Type} (f : T → U → U) (u : U) :
    ∀ (l : List T) (fuel : Nat), l.length ≤ fuel →
      foldRightGo f u fuel u l = (l.foldr f u, []) := by
  intro l
  induction l with
  | nil => intro fuel _; simp [foldRightGo_nil, List.foldr]
  | cons t ts ih =>
    intro fuel hfuel
    cases fuel with
    | zero => simp at hfuel
    | succ m =>
      have hts : ts.length ≤ m := by simpa using hfuel
      simp [foldRightGo, ih m hts, foldRightGo_nil]

theorem filter_beq_eq_replicate_count {T : Type} [DecidableEq T] (z : T) :
    ∀ l : List T, l.filter (fun a => a == z) = List.replicate (l.count z) z := by
  intro l
  induction l with
  | nil => simp
  | cons a as ih =>
    by_cases h : a = z
    · subst h
      simp [List.filter, List.count_cons, ih, List.replicate_succ]
    · have hb : (a == z) = false := beq_false_of_ne h
      simp [List.filter, hb, List.count_cons, h, ih]

/-! Claim theorems for the sequential combinators. -/

/-- Claim C8: for every finite sequence S and function f,
ToSlice(Map(FromSlice(S), f)) is the element-wise application of f to S,
order preserved. -/
theorem map_pipeline_elementwise :
    ∀ (T U : Type) (S : List T) (f : T → U),
      ToSlice (Map (FromSlice S) f) = S.map f := by
  intro T U S f
  rw [FromSlice_eq, Map_eq_map, ToSlice_eq]

/-- Claim C4: Zip produces exactly min(len(a), len(b)) pairs, the i-th pair
holding the i-th element of each input, and stops as soon as either side is
exhausted, discarding the remainder of the longer side; in particular
Zip([1,2,3], ["bob"]) is exactly the one pair (1, "bob"). -/
theorem zip_min_pairs :
    (∀ (T U : Type) (a : List T) (b : List U),
      (Zip a b).length = min a.length b.length ∧
      (∀ (i : Nat) (x : T) (y : U), a[i]? = some x → b[i]? = some y →
        (Zip a b)[i]? = some (Pair.mk x y))) ∧
    Zip [1, 2, 3] ["bob"] = [Pair.mk 1 "bob"] := by
  refine ⟨fun T U a b => ⟨zipLoop_length a b, fun i x y hx hy => zipLoop_getElem? a b i x y hx hy⟩, ?_⟩
  rfl

/-- Witness for claim C4 at a = [1,2,3], b = ["bob"]. -/
theorem zip_min_pairs_witness :
    (Zip [1, 2, 3] ["bob"]).length = min 3 1 ∧
      (Zip [1, 2, 3] ["bob"])[0]? = some (Pair.mk 1 "bob") :=
  ⟨(zip_min_pairs.1 Nat String [1, 2, 3] ["bob"]).1,
   (zip_min_pairs.1 Nat String [1, 2, 3] ["bob"]).2 0 1 "bob" rfl rfl⟩

/-- Claim C10: for max ≥ 0 and an input longer than max, Limit forwards
exactly the first max elements and consumes max + 1 elements from its
input: the element that makes the count reach max is read and discarded
before the output closes (so Limit with max = 0 still consumes one
element). -/
theorem limit_forwards_max_consumes_one_more :
    ∀ (T : Type) (l : List T) (max : Int), 0 ≤ max → max < l.length →
      (Limit l max).1 = l.take max.toNat ∧ (Limit l max).2 = max.toNat + 1 := by
  intro T l max h0 hlen
  have h := limitLoop_spec l max 0 h0 (by simpa using hlen)
  simp only [Limit, h]
  constructor
  · simp
  · simp

/-- Witness for claim C10 at l = [5, 6, 7] with max = 1 and max = 0. -/
theorem limit_forwards_max_consumes_one_more_witness :
    ((Limit [5, 6, 7] 1).1 = [5] ∧ (Limit [5, 6, 7] 1).2 = 2) ∧
      ((Limit [5, 6, 7] 0).1 = [] ∧ (Limit [5, 6, 7] 0).2 = 1) := by
  have h1 := limit_forwards_max_consumes_one_more Nat [5, 6, 7] 1 (by decide) (by decide)
  have h0 := limit_forwards_max_consumes_one_more Nat [5, 6, 7] 0 (by decide) (by decide)
  exact ⟨h1, h0⟩

/-- Claim C9: for a finite source delivered left-to-right, channel.FoldRight
combines right-to-left, returning the same value as slice.FoldRight on the
same sequence, and on empty input it returns the initial accumulator
without invoking the combining function. -/
theorem foldRight_matches_slice_foldRight :
    ∀ (T U : Type) (S : List T) (f : T → U → U) (u : U),
      FoldRight S f u = sliceFoldRight S f u ∧ FoldRight ([] : List T) f u = u := by
  intro T U S f u
  constructor
  · have hch := foldRightGo_spec f u S S.length le_rfl
    have hsl : sliceFoldRight S f u = S.foldr f u := by
      simp [sliceFoldRight, List.foldl_reverse]
    simp [FoldRight, hch, hsl]
  · simp [FoldRight, foldRightGo_nil]

theorem chunksSpec_nil {T : Type} (s : Nat) : chunksSpec s ([] : List T) = [] := by
  rw [chunksSpec.eq_def]

theorem chunksSpec_cons {T : Type} (s : Nat) (t : T) (ts : List T) :
    chunksSpec s (t :: ts) = (t :: ts.take s) :: chunksSpec s (ts.drop s) := by
  rw [chunksSpec.eq_def]

theorem partitionLoop_eq_chunksSpec {T : Type} (s : Nat) :
    ∀ (l window : List T), window.length ≤ s + 1 →
      partitionLoop (s + 1) l window.length window = chunksSpec s (window ++ l) := by
  intro l
  induction l with
  | nil =>
    intro window hw
    cases window with
    | nil => simp [partitionLoop, chunksSpec]
    | cons w ws =>
      have hws : ws.length ≤ s := by simpa using hw
      rw [List.append_nil, chunksSpec_cons]
      simp [partitionLoop, List.take_of_length_le hws, List.drop_eq_nil_of_le hws,
        chunksSpec_nil]
  | cons t ts ih =>
    intro window hw
    by_cases hc : window.length = s + 1
    · have h1 : partitionLoop (s + 1) (t :: ts) window.length window
          = window :: partitionLoop (s + 1) ts 1 [t] := by
        rw [partitionLoop, if_pos hc]
      have h2 : partitionLoop (s + 1) ts 1 [t] = chunksSpec s ([t] ++ ts) := by
        have h := ih [t] (by simp)
        simpa using h
      cases window with
      | nil => simp at hc
      | cons w ws =>
        have hws : ws.length = s := by simpa using hc
        rw [h1, h2]
        rw [show (w :: ws) ++ t :: ts = w :: (ws ++ t :: ts) by simp]
        rw [chunksSpec_cons, List.take_left' hws, List.drop_left' hws]
        simp
    · have h1 : partitionLoop (s + 1) (t :: ts) window.length window
          = partitionLoop (s + 1) ts (window.length + 1) (window ++ [t]) := by
        rw [partitionLoop, if_neg hc]
      have h2 := ih (window ++ [t]) (by simp; omega)
      rw [h1]
      have hlen : (window ++ [t]).length = window.length + 1 := by simp
      rw [hlen] at h2
      rw [h2]
      simp

theorem chunksSpec_eq_nil_iff {T : Type} (s : Nat) (l : List T) :
    chunksSpec s l = [] ↔ l = [] := by
  cases l with
  | nil => simp [chunksSpec_nil]
  | cons t ts => rw [chunksSpec_cons]; simp

theorem chunksSpec_flatten {T : Type} (s : Nat) : ∀ l : List T, (chunksSpec s l).flatten = l := by
  have key : ∀ (N : Nat) (l : List T), l.length ≤ N → (chunksSpec s l).flatten = l := by
    intro N
    induction N with
    | zero =>
      intro l h
      have hl : l = [] := List.eq_nil_of_length_eq_zero (Nat.le_zero.mp h)
      subst hl
      simp [chunksSpec_nil]
    | succ N ih =>
      intro l h
      cases l with
      | nil => simp [chunksSpec_nil]
      | cons t ts =>
        rw [chunksSpec_cons]
        simp only [List.flatten_cons]
        rw [ih (ts.drop s) (by simp at h ⊢; omega)]
        simp
  intro l
  exact key l.length l le_rfl

theorem chunksSpec_mem_length {T : Type} (s : Nat) :
    ∀ l : List T, ∀ w ∈ chunksSpec s l, 1 ≤ w.length ∧ w.length ≤ s + 1 := by
  have key : ∀ (N : Nat) (l : List T), l.length ≤ N →
      ∀ w ∈ chunksSpec s l, 1 ≤ w.length ∧ w.length ≤ s + 1 := by
    intro N
    induction N with
    | zero =>
      intro l h w hw
      have hl : l = [] := List.eq_nil_of_length_eq_zero (Nat.le_zero.mp h)
      subst hl
      simp [chunksSpec_nil] at hw
    | succ N ih =>
      intro l h w hw
      cases l with
      | nil => simp [chunksSpec_nil] at hw
      | cons t ts =>
        rw [chunksSpec_cons] at hw
        rcases List.mem_cons.mp hw with h1 | h2
        · subst h1
          constructor
          · simp
          · simp only [List.length_cons, List.length_take]
            omega
        · exact ih (ts.drop s) (by simp at h ⊢; omega) w h2
  intro l
  exact key l.length l le_rfl

theorem chunksSpec_get?_length {T : Type} (s : Nat) :
    ∀ (l : List T) (i : Nat) (w : List T), i + 1 < (chunksSpec s l).length →
      (chunksSpec s l).get? i = some w → w.length = s + 1 := by
  have key : ∀ (N : Nat) (l : List T), l.length ≤ N →
      ∀ (i : Nat) (w : List T), i + 1 < (chunksSpec s l).length →
        (chunksSpec s l).get? i = some w → w.length = s + 1 := by
    intro N
    induction N with
    | zero =>
      intro l h i w hi hg
      have hl : l = [] := List.eq_nil_of_length_eq_zero (Nat.le_zero.mp h)
      subst hl
      simp [chunksSpec_nil] at hi
    | succ N ih =>
      intro l h i w hi hg
      cases l with
      | nil => simp [chunksSpec_nil] at hi
      | cons t ts =>
        rw [chunksSpec_cons] at hi hg
        cases i with
        | zero =>
          have hw : t :: ts.take s = w := by simpa using hg
          have hrest : chunksSpec s (ts.drop s) ≠ [] := by
            intro hnil
            rw [hnil] at hi
            simp at hi
          have hdrop : ts.drop s ≠ [] := by
            intro hnil
            exact hrest ((chunksSpec_eq_nil_iff s (ts.drop s)).mpr hnil)
          have hts : s < ts.length := by
            by_contra hle
            exact hdrop (List.drop_eq_nil_of_le (by omega))
          subst hw
          simp only [List.length_cons, List.length_take]
          omega
        | succ j =>
          have hi' : j + 1 < (chunksSpec s (ts.drop s)).length := by
            simpa using hi
          have hg' : (chunksSpec s (ts.drop s)).get? j = some w := by
            simpa using hg
          exact ih (ts.drop s) (by simp at h ⊢; omega) j w hi' hg'
  intro l
  exact key l.length l le_rfl

theorem chunksSpec_getLast_length {T : Type} (s : Nat) :
    ∀ l : List T, l ≠ [] → ∃ w, (chunksSpec s l).getLast? = some w ∧
      w.length = if l.length % (s + 1) = 0 then s + 1 else l.length % (s + 1) := by
  have key : ∀ (N : Nat) (l : List T), l.length ≤ N → l ≠ [] →
      ∃ w, (chunksSpec s l).getLast? = some w ∧
        w.length = if l.length % (s + 1) = 0 then s + 1 else l.length % (s + 1) := by
    intro N
    induction N with
    | zero =>
      intro l h hne
      exact absurd (List.eq_nil_of_length_eq_zero (Nat.le_zero.mp h)) hne
    | succ N ih =>
      intro l h hne
      cases l with
      | nil => exact absurd rfl hne
      | cons t ts =>
        by_cases hts : ts.length ≤ s
        · refine ⟨t :: ts, ?_, ?_⟩
          · rw [chunksSpec_cons, List.take_of_length_le hts, List.drop_eq_nil_of_le hts]
            simp [chunksSpec_nil]
          · have hlen : (t :: ts).length = ts.length + 1 := by simp
            rw [hlen]
            by_cases heq : ts.length + 1 = s + 1
            · rw [heq]
              simp
            · have hlt : ts.length + 1 < s + 1 := by omega
              rw [Nat.mod_eq_of_lt hlt, if_neg (by omega)]
        · push_neg at hts
          have hdrop_len : (ts.drop s).length = ts.length - s := by simp
          have hdrop_ne : ts.drop s ≠ [] := by
            intro hnil
            have := congrArg List.length hnil
            simp at this
            omega
          obtain ⟨w, hw1, hw2⟩ := ih (ts.drop s) (by simp at h ⊢; omega) hdrop_ne
          refine ⟨w, ?_, ?_⟩
          · rw [chunksSpec_cons]
            obtain ⟨w1, rest1, hrest⟩ : ∃ w1 rest1, chunksSpec s (ts.drop s) = w1 :: rest1 := by
              cases hcs : chunksSpec s (ts.drop s) with
              | nil => exact absurd ((chunksSpec_eq_nil_iff s (ts.drop s)).mp hcs) hdrop_ne
              | cons w1 rest1 => exact ⟨w1, rest1, rfl⟩
            rw [hrest] at hw1 ⊢
            rwa [List.getLast?_cons_cons]
          · have harith : (t :: ts).length = (ts.drop s).length + (s + 1) := by
              simp
              omega
            rw [harith, Nat.add_mod_right]
            exact hw2
  intro l
  exact key l.length l le_rfl

/-- Claim C7: for size ≥ 1, Partition emits consecutive windows of exactly
`size` elements in input order, with one final window of 1..size elements
that is short exactly when the input length is not a multiple of size; an
empty input yields zero windows; slice.Partition behaves identically; and
Partition([0..9], 3) is [0,1,2],[3,4,5],[6,7,8],[9]. -/
theorem partition_windows :
    (∀ (T : Type) (l : List T) (size : Nat), 1 ≤ size →
      (Partition l size).flatten = l ∧
      (∀ (i : Nat) (w : List T), i + 1 < (Partition l size).length →
        (Partition l size).get? i = some w → w.length = size) ∧
      (∀ w ∈ Partition l size, 1 ≤ w.length ∧ w.length ≤ size) ∧
      (l = [] → Partition l size = []) ∧
      (l ≠ [] → ∃ w, (Partition l size).getLast? = some w ∧
        w.length = if l.length % size = 0 then size else l.length % size) ∧
      slicePartition l size = Partition l size) ∧
    Partition (List.range 10) 3 = [[0,1,2],[3,4,5],[6,7,8],[9]] := by
  constructor
  · intro T l size hsize
    cases size with
    | zero => omega
    | succ s =>
      have hP : Partition l (s + 1) = chunksSpec s l := by
        have h := partitionLoop_eq_chunksSpec s l [] (by simp)
        simpa [Partition] using h
      refine ⟨?_, ?_, ?_, ?_, ?_, ?_⟩
      · rw [hP]; exact chunksSpec_flatten s l
      · intro i w hi hg
        rw [hP] at hi hg
        exact chunksSpec_get?_length s l i w hi hg
      · intro w hw
        rw [hP] at hw
        exact chunksSpec_mem_length s l w hw
      · intro hl
        subst hl
        rw [hP, chunksSpec_nil]
      · intro hne
        rw [hP]
        exact chunksSpec_getLast_length s l hne
      · rfl
  · decide

/-- Witness for claim C7 at l = [0..9], size = 3. -/
theorem partition_windows_witness :
    (Partition (List.range 10) 3).flatten = List.range 10 :=
  (partition_windows.1 Nat (List.range 10) 3 (by decide)).1

/-- Claim C3: every output Sorted can emit (a permutation of the buffered
input with no inversion under the element order) is non-decreasing, and
tie-breaking is stable: for each value z, the run of elements equal to z
is exactly the same as in the input, so equal elements keep their original
relative order.  The second conjunct shows the behaviour is realizable. -/
theorem sorted_nondecreasing_and_stable :
    (∀ (T : Type) [inst : LinearOrder T] (input output : List T),
      SortedRun input output →
        output.Sorted (fun a b => a ≤ b) ∧
        ∀ z : T, output.filter (fun a => a == z) = input.filter (fun a => a == z)) ∧
    (∀ (T : Type) [inst : LinearOrder T] (input : List T),
      SortedRun input (sortedImpl input)) := by
  constructor
  · intro T inst input output h
    obtain ⟨hperm, hpw⟩ := h
    constructor
    · exact hpw.imp fun h => not_lt.mp h
    · intro z
      rw [filter_beq_eq_replicate_count z output, filter_beq_eq_replicate_count z input,
        hperm.count_eq z]
  · intro T inst input
    constructor
    · exact List.perm_insertionSort _ input
    · have hs := List.sorted_insertionSort (fun a b => a ≤ b) input
      exact hs.imp fun h => not_lt.mpr h

/-- Witness for claim C3 at input [2,1,2], output [1,2,2]. -/
theorem sorted_nondecreasing_and_stable_witness :
    SortedRun [2, 1, 2] [1, 2, 2] ∧
      ([1, 2, 2] : List Nat).Sorted (fun a b => a ≤ b) ∧
      ([1, 2, 2] : List Nat).filter (fun a => a == 2)
        = ([2, 1, 2] : List Nat).filter (fun a => a == 2) := by
  have h : SortedRun [2, 1, 2] [1, 2, 2] := ⟨by decide, by decide⟩
  exact ⟨h, (sorted_nondecreasing_and_stable.1 Nat [2, 1, 2] [1, 2, 2] h).1,
    (sorted_nondecreasing_and_stable.1 Nat [2, 1, 2] [1, 2, 2] h).2 2⟩

/-- Claim C2: ParallelMap and ParallelFilter spawn a fixed pool of worker
tasks, one per iteration of the pool-creation loop, whose size equals the
externally provided available-parallelism count (runtime.NumCPU, read once
at pool creation) and does not depend on the input elements. -/
theorem parallel_pool_size_is_concurrency :
    ∀ (T : Type) (c : Nat) (input : List T) (assign : Nat → Nat),
      (PoolRun.mk c input assign).workers.length = c ∧
      (∀ input2 : List T,
        (PoolRun.mk c input assign).workers = (PoolRun.mk c input2 assign).workers) := by
  intro T c input assign
  exact ⟨List.length_range c, fun _ => rfl⟩

/-! Helper lemmas about getD on set and replicate, used by the Clone
invariant. -/

theorem getD_set_self {α : Type} (l : List α) (i : Nat) (v d : α) (h : i < l.length) :
    (l.set i v).getD i d = v := by
  simp [List.getD_eq_getElem?_getD, List.getElem?_set_self h]

theorem getD_set_ne {α : Type} (l : List α) (i j : Nat) (v d : α) (h : i ≠ j) :
    (l.set i v).getD j d = l.getD j d := by
  simp [List.getD_eq_getElem?_getD, List.getElem?_set_ne h]

theorem getD_replicate {α : Type} (a d : α) (n i : Nat) (h : i < n) :
    (List.replicate n a).getD i d = a := by
  simp [List.getD_eq_getElem?_getD, List.getElem?_replicate, h]

/-! Invariant proofs for the Clone transition system. -/

theorem cloneInv_init {T : Type} [DecidableEq T] (src : List T) (n : Nat) :
    CloneInv src n (initClone T n) := by
  refine ⟨by simp [initClone], by simp [initClone], by simp [initClone], ?_, ?_, ?_, ?_, ?_⟩
  · intro i hi
    simp [initClone, getD_replicate 0 0 n i hi]
  · intro i hi
    simp [initClone, getD_replicate ([] : List T) [] n i hi, getD_replicate 0 0 n i hi]
  · intro p hp
    simp [initClone] at hp
  · intro i hi seq hseq
    simp [initClone] at hseq
  · simp [initClone]

theorem cloneInv_step {T : Type} [DecidableEq T] (src : List T) (n : Nat)
    (s s' : CloneState T) (hinv : CloneInv src n s) (hstep : CloneStep src n s s') :
    CloneInv src n s' := by
  obtain ⟨hT, hD, hRC, hTB, hDel, hPend, hDisp, hND⟩ := hinv
  cases hstep with
  | read h =>
    dsimp only [CloneInv]
    refine ⟨hT, hD, h, ?_, hDel, ?_, ?_, ?_⟩
    · intro i hi
      exact le_trans (hTB i hi) (Nat.le_succ _)
    · intro p hp
      rcases List.mem_append.mp hp with hold | hnew
      · obtain ⟨h1, h2, h3, h4⟩ := hPend p hold
        exact ⟨h1, Nat.lt_succ_of_lt h2, h3, h4⟩
      · obtain ⟨i, hi, rfl⟩ := List.mem_map.mp hnew
        have hi' : i < n := List.mem_range.mp hi
        refine ⟨hi', Nat.lt_succ_self _, hTB i hi', ?_⟩
        simp [List.getElem?_eq_getElem h]
    · intro i hi seq hseq hticket
      by_cases hlt : seq < s.readCount
      · obtain ⟨x, hx1, hx2⟩ := hDisp i hi seq hlt hticket
        exact ⟨x, hx1, List.mem_append_left _ hx2⟩
      · have hseqe : seq = s.readCount := by omega
        subst hseqe
        refine ⟨src.get ⟨s.readCount, h⟩, by simp [List.getElem?_eq_getElem h], ?_⟩
        exact List.mem_append_right _ (List.mem_map.mpr ⟨i, List.mem_range.mpr hi, rfl⟩)
    · rw [List.map_append, List.nodup_append]
      refine ⟨hND, ?_, ?_⟩
      · rw [List.map_map]
        exact List.Nodup.map (fun a b hab => by simpa using hab) (List.nodup_range n)
      · intro a ha hb
        obtain ⟨p, hp, hpa⟩ := List.mem_map.mp ha
        rw [List.map_map] at hb
        obtain ⟨i, _, hib⟩ := List.mem_map.mp hb
        have h2 := (hPend p hp).2.1
        rw [← hpa] at hib
        have : s.readCount = p.2.1 := congrArg Prod.snd hib
        omega
  | deliver i seq x hi hmem hticket =>
    dsimp only [CloneInv]
    obtain ⟨hp1, hp2, hp3, hp4⟩ := hPend (i, seq, x) hmem
    dsimp only at hp1 hp2 hp3 hp4
    have hiT : i < s.tickets.length := by rw [hT]; exact hi
    have hiD : i < s.delivered.length := by rw [hD]; exact hi
    have hndp : s.pending.Nodup := hND.of_map
    refine ⟨by simp [hT], by simp [hD], hRC, ?_, ?_, ?_, ?_, ?_⟩
    · intro j hj
      by_cases hij : i = j
      · subst hij
        rw [getD_set_self _ _ _ _ hiT]
        omega
      · rw [getD_set_ne _ _ _ _ _ hij]
        exact hTB j hj
    · intro j hj
      by_cases hij : i = j
      · subst hij
        rw [getD_set_self _ _ _ _ hiD, getD_set_self _ _ _ _ hiT]
        rw [hDel i hi, hticket, List.take_succ, hp4]
        simp
      · rw [getD_set_ne _ _ _ _ _ hij, getD_set_ne _ _ _ _ _ hij]
        exact hDel j hj
    · intro p hp
      have hp' : p ∈ s.pending := List.mem_of_mem_erase hp
      obtain ⟨q1, q2, q3, q4⟩ := hPend p hp'
      refine ⟨q1, q2, ?_, q4⟩
      by_cases hpi : p.1 = i
      · rw [hpi, getD_set_self _ _ _ _ hiT]
        rcases Nat.lt_or_ge seq p.2.1 with hlt | hge
        · omega
        · have heq : p.2.1 = seq := by
            rw [hpi, hticket] at q3
            omega
          have hx : p.2.2 = x := by
            rw [heq] at q4
            rw [q4] at hp4
            exact Option.some_inj.mp hp4
          have hpeq : p = (i, seq, x) := by
            obtain ⟨a, b, c⟩ := p
            simp at hpi heq hx
            simp [hpi, heq, hx]
          rw [hpeq] at hp
          obtain ⟨hne, _⟩ := (hndp.mem_erase_iff).mp hp
          exact absurd rfl hne
      · rw [getD_set_ne _ _ _ _ _ (fun hcon => hpi hcon.symm)]
        exact q3
    · intro j hj seq' hseq' hticket'
      by_cases hij : j = i
      · subst hij
        rw [getD_set_self _ _ _ _ hiT] at hticket'
        have hold : s.tickets.getD j 0 ≤ seq' := by omega
        obtain ⟨x', hx1, hx2⟩ := hDisp j hj seq' hseq' hold
        refine ⟨x', hx1, ?_⟩
        rw [List.mem_erase_of_ne]
        · exact hx2
        · intro hcon
          have : seq' = seq := by
            have := congrArg (fun q => q.2.1) hcon
            simpa using this
          omega
      · rw [getD_set_ne _ _ _ _ _ (fun hcon => hij hcon.symm)] at hticket'
        obtain ⟨x', hx1, hx2⟩ := hDisp j hj seq' hseq' hticket'
        refine ⟨x', hx1, ?_⟩
        rw [List.mem_erase_of_ne]
        · exact hx2
        · intro hcon
          have : j = i := by
            have := congrArg (fun q => q.1) hcon
            simpa using this
          exact hij this
    · exact hND.sublist (List.Sublist.map _ (List.erase_sublist _ _))

theorem cloneInv_reachable {T : Type} [DecidableEq T] (src : List T) (n : Nat)
    (s : CloneState T) (h : CloneReachable src n s) : CloneInv src n s := by
  induction h with
  | refl => exact cloneInv_init src n
  | tail hab hbc ih => exact cloneInv_step src n _ _ ih hbc

theorem set_append_length {α : Type} :
    ∀ (l1 : List α) (a b : α) (l2 : List α),
      (l1 ++ a :: l2).set l1.length b = l1 ++ b :: l2 := by
  intro l1
  induction l1 with
  | nil => intro a b l2; simp
  | cons x xs ih => intro a b l2; simp [ih]

theorem getD_append_length {α : Type} (l1 l2 : List α) (d : α) :
    (l1 ++ l2).getD l1.length d = l2.getD 0 d := by
  simp [List.getD_eq_getElem?_getD, List.getElem?_append_right (le_refl l1.length)]

/-- One full delivery phase of the Clone system: after the main task has
read element `m` and spawned its `n` delivery tasks, delivering to clones
`j, j+1, ..., n-1` in turn reaches the fully synchronized state for
`m + 1` elements. -/
theorem clone_deliver_phase {T : Type} [DecidableEq T] (src : List T) (n m : Nat)
    (hm : m < src.length) :
    ∀ k j, j + k = n →
      Relation.ReflTransGen (CloneStep src n)
        ⟨m + 1, (List.range' j k).map (fun i => (i, m, src.get ⟨m, hm⟩)),
         List.replicate j (m + 1) ++ List.replicate k m,
         List.replicate j (src.take (m + 1)) ++ List.replicate k (src.take m)⟩
        (cloneStateAt T src n (m + 1)) := by
  intro k
  induction k with
  | zero =>
    intro j hj
    have hjn : j = n := by omega
    rw [hjn]
    have he : (⟨m + 1, (List.range' n 0).map (fun i => (i, m, src.get ⟨m, hm⟩)),
        List.replicate n (m + 1) ++ List.replicate 0 m,
        List.replicate n (src.take (m + 1)) ++ List.replicate 0 (src.take m)⟩ : CloneState T)
        = cloneStateAt T src n (m + 1) := by
      simp [cloneStateAt]
    rw [he]
  | succ k ih =>
    intro j hj
    have hjn : j < n := by omega
    have hmem : (j, m, src.get ⟨m, hm⟩)
        ∈ (List.range' j (k + 1)).map (fun i => (i, m, src.get ⟨m, hm⟩)) :=
      List.mem_map.mpr ⟨j, by simp [List.range'_succ], rfl⟩
    have hticket : (List.replicate j (m + 1) ++ List.replicate (k + 1) m).getD j 0 = m := by
      have h := getD_append_length (List.replicate j (m + 1)) (List.replicate (k + 1) m) 0
      rw [List.length_replicate] at h
      simpa [List.replicate_succ] using h
    have hstep := @CloneStep.deliver T _ src n
      (⟨m + 1, (List.range' j (k + 1)).map (fun i => (i, m, src.get ⟨m, hm⟩)),
        List.replicate j (m + 1) ++ List.replicate (k + 1) m,
        List.replicate j (src.take (m + 1)) ++ List.replicate (k + 1) (src.take m)⟩ : CloneState T)
      j m (src.get ⟨m, hm⟩) hjn hmem hticket
    have e2 : ((List.range' j (k + 1)).map (fun i => (i, m, src.get ⟨m, hm⟩))).erase
        (j, m, src.get ⟨m, hm⟩) = (List.range' (j + 1) k).map (fun i => (i, m, src.get ⟨m, hm⟩)) := by
      rw [List.range'_succ, List.map_cons, List.erase_cons_head]
    have e3 : (List.replicate j (m + 1) ++ List.replicate (k + 1) m).set j (m + 1)
        = List.replicate (j + 1) (m + 1) ++ List.replicate k m := by
      have h := set_append_length (List.replicate j (m + 1)) m (m + 1) (List.replicate k m)
      rw [List.length_replicate] at h
      rw [List.replicate_succ, h, List.replicate_succ', List.append_assoc, List.singleton_append]
    have hgd : (List.replicate j (src.take (m + 1))
        ++ List.replicate (k + 1) (src.take m)).getD j [] = src.take m := by
      have h := getD_append_length (List.replicate j (src.take (m + 1)))
        (List.replicate (k + 1) (src.take m)) []
      rw [List.length_replicate] at h
      simpa [List.replicate_succ] using h
    have e4 : (List.replicate j (src.take (m + 1)) ++ List.replicate (k + 1) (src.take m)).set j
        ((List.replicate j (src.take (m + 1))
          ++ List.replicate (k + 1) (src.take m)).getD j [] ++ [src.get ⟨m, hm⟩])
        = List.replicate (j + 1) (src.take (m + 1)) ++ List.replicate k (src.take m) := by
      rw [hgd]
      have hval : src.take m ++ [src.get ⟨m, hm⟩] = src.take (m + 1) := by
        rw [List.take_succ, List.getElem?_eq_getElem hm]
        simp
      rw [hval]
      have h := set_append_length (List.replicate j (src.take (m + 1))) (src.take m)
        (src.take (m + 1)) (List.replicate k (src.take m))
      rw [List.length_replicate] at h
      rw [List.replicate_succ, h, List.replicate_succ', List.append_assoc, List.singleton_append]
    rw [e2, e3, e4] at hstep
    exact Relation.ReflTransGen.head hstep (ih (j + 1) (by omega))

/-- The Clone system can run to full delivery: for every m ≤ length of the
source, the state in which the first m elements have been read and
delivered to all n clones is reachable. -/
theorem clone_run_all {T : Type} [DecidableEq T] (src : List T) (n : Nat) :
    ∀ m, m ≤ src.length → CloneReachable src n (cloneStateAt T src n m) := by
  intro m
  induction m with
  | zero =>
    intro _
    have he : cloneStateAt T src n 0 = initClone T n := by
      simp [cloneStateAt, initClone]
    rw [CloneReachable, he]
  | succ m ih =>
    intro hm1
    have hm : m < src.length := hm1
    have h1 : CloneReachable src n (cloneStateAt T src n m) := ih (le_of_lt hm)
    have h2 := clone_deliver_phase src n m hm n 0 (by omega)
    have hread : CloneStep src n (cloneStateAt T src n m)
        ⟨m + 1, (List.range' 0 n).map (fun i => (i, m, src.get ⟨m, hm⟩)),
         List.replicate 0 (m + 1) ++ List.replicate n m,
         List.replicate 0 (src.take (m + 1)) ++ List.replicate n (src.take m)⟩ := by
      have h := @CloneStep.read T _ src n (cloneStateAt T src n m) hm
      convert h using 1
      simp [cloneStateAt, List.range_eq_range']
    exact (h1.tail hread).trans h2

/-- Claim C5: in every reachable state of Clone, under any interleaving of
the main task, the delivery tasks and the consumers, every element a clone
has received agrees with the source element at the same position (so no
clone's sequence is ever corrupted, however far out of step the other
clones are read); and the run in which every clone receives the entire
source is reachable. -/
theorem clone_outputs_match_source :
    (∀ (T : Type) [inst : DecidableEq T] (src : List T) (n : Nat) (s : CloneState T),
      CloneReachable src n s → ∀ i, i < n → ∀ (k : Nat) (x : T),
        (s.delivered.getD i [])[k]? = some x → src[k]? = some x) ∧
    (∀ (T : Type) [inst : DecidableEq T] (src : List T) (n : Nat),
      CloneReachable src n
        ⟨src.length, [], List.replicate n src.length, List.replicate n src⟩) := by
  constructor
  · intro T inst src n s hreach i hi k x hx
    obtain ⟨hT, hD, hRC, hTB, hDel, _, _, _⟩ := cloneInv_reachable src n s hreach
    rw [hDel i hi] at hx
    have hk : k < s.tickets.getD i 0 := by
      by_contra hk
      rw [List.getElem?_take_eq_none (by omega)] at hx
      exact Option.noConfusion hx
    rwa [List.getElem?_take_of_lt hk] at hx
  · intro T inst src n
    have h := clone_run_all src n src.length le_rfl
    have he : cloneStateAt T src n src.length
        = ⟨src.length, [], List.replicate n src.length, List.replicate n src⟩ := by
      simp [cloneStateAt]
    rwa [he] at h

/-- Witness for claim C5: with source [10, 20] and 2 clones, the fully
delivered state is reachable, and in it clone 0's first element matches
the source. -/
theorem clone_outputs_match_source_witness :
    CloneReachable [10, 20] 2 ⟨2, [], List.replicate 2 2, List.replicate 2 [10, 20]⟩ ∧
      ([10, 20] : List Nat)[0]? = some 10 := by
  have hreach := clone_outputs_match_source.2 Nat [10, 20] 2
  refine ⟨hreach, ?_⟩
  exact clone_outputs_match_source.1 Nat [10, 20] 2 _ hreach 0 (by decide) 0 10 (by decide)

/-- Counterexample to claim C1 as stated: with source [10, 20] and 2
clones, the interleaving read, read, deliver clone 0 element 0, deliver
clone 0 element 1 reaches a state in which clone 0 has received two
elements while clone 1 has received none, so a clone can race ahead of
another. -/
theorem clone_lockstep_counterexample : ¬ CloneLockstep [10, 20] 2 := by
  intro hlock
  have h0 : CloneReachable [10, 20] 2 (initClone Nat 2) := Relation.ReflTransGen.refl
  have h1 := h0.tail (@CloneStep.read Nat _ [10, 20] 2 (initClone Nat 2) (by decide))
  have h2 := h1.tail (@CloneStep.read Nat _ [10, 20] 2 _ (by decide))
  have h3 := h2.tail (@CloneStep.deliver Nat _ [10, 20] 2 _ 0 0 10 (by decide) (by decide)
    (by decide))
  have h4 := h3.tail (@CloneStep.deliver Nat _ [10, 20] 2 _ 0 1 20 (by decide) (by decide)
    (by decide))
  exact absurd (hlock _ h4 1 0 (by decide) (by decide) 1 (by decide)) (by decide)

/-- Amended claim C1: for each element read, the main task hands the
element to delivery tasks for all n clones before reading the next element
(in every reachable state, each read element is, per clone, either already
delivered or held by a pending delivery task), and each clone receives
elements in exactly the source order; but clones may advance at different
speeds, so a clone whose consumer reads faster can receive its next
element before a slower clone has received an earlier one. -/
theorem clone_dispatch_all_per_clone_order :
    ∀ (T : Type) [inst : DecidableEq T] (src : List T) (n : Nat) (s : CloneState T),
      CloneReachable src n s →
        (∀ seq, seq < s.readCount → ∀ i, i < n →
          seq < s.tickets.getD i 0 ∨ ∃ x, src[seq]? = some x ∧ (i, seq, x) ∈ s.pending) ∧
        (∀ i, i < n → s.delivered.getD i [] = src.take (s.tickets.getD i 0)) := by
  intro T inst src n s hreach
  obtain ⟨hT, hD, hRC, hTB, hDel, hPend, hDisp, hND⟩ := cloneInv_reachable src n s hreach
  constructor
  · intro seq hseq i hi
    by_cases hlt : seq < s.tickets.getD i 0
    · exact Or.inl hlt
    · exact Or.inr (hDisp i hi seq hseq (by omega))
  · exact hDel

/-- Witness for the amended claim C1 at the initial state of
Clone([10, 20], 2). -/
theorem clone_dispatch_all_per_clone_order_witness :
    (initClone Nat 2).delivered.getD 0 []
      = ([10, 20] : List Nat).take ((initClone Nat 2).tickets.getD 0 0) :=
  (clone_dispatch_all_per_clone_order Nat [10, 20] 2 (initClone Nat 2)
    Relation.ReflTransGen.refl).2 0 (by decide)

/-! Invariant and progress lemmas for the Generate transition system. -/

theorem genInv_init (o : Option StopPC) (ho : o = none ∨ o = some StopPC.idle) :
    GenInv (genInit o) := by
  rcases ho with rfl | rfl <;> exact ⟨by simp [genInit], by simp [genInit],
    by simp [genInit], by simp [genInit]⟩

theorem genInv_step (s s' : GenState) (hinv : GenInv s) (hstep : GenStep s s') :
    GenInv s' := by
  obtain ⟨h1, h2, h3, h4⟩ := hinv
  cases hstep with
  | load h =>
    refine ⟨h1, h2, fun hx => ?_, fun hx => ?_⟩
    · have hx' : s.stop1 = StopPC.returned := hx
      have hf := h1 (by simp [hx'])
      simp [hf]
    · have hx' : s.stop2 = some StopPC.returned := hx
      have hf := h2 (Or.inr hx')
      simp [hf]
  | store1 h =>
    exact ⟨fun _ => rfl, fun _ => rfl, fun hx => by simp at hx, h4⟩
  | pair1 hg h =>
    refine ⟨fun _ => h1 (by simp [h]), h2, fun _ => by simp, fun _ => by simp⟩
  | closed1 hg h =>
    refine ⟨fun _ => h1 (by simp [h]), h2, fun _ => by simp [hg], fun _ => by simp [hg]⟩
  | store2 h =>
    exact ⟨fun _ => rfl, fun _ => rfl, h3, fun hx => by simp at hx⟩
  | pair2 hg h =>
    refine ⟨h1, fun _ => h2 (Or.inl h), fun _ => by simp, fun _ => by simp⟩
  | closed2 hg h =>
    refine ⟨h1, fun _ => h2 (Or.inl h), fun _ => by simp [hg], fun _ => by simp [hg]⟩
  | consume hg =>
    exact ⟨h1, h2, fun _ => by simp, fun _ => by simp⟩

theorem genInv_reachable (o : Option StopPC) (ho : o = none ∨ o = some StopPC.idle)
    (s : GenState) (h : GenReachable o s) : GenInv s := by
  induction h with
  | refl => exact genInv_init o ho
  | tail hab hbc ih => exact genInv_step _ _ ih hbc

theorem genStop1_mono (s s' : GenState) (hstep : GenStep s s')
    (h : s.stop1 = StopPC.returned) : s'.stop1 = StopPC.returned := by
  cases hstep <;> simp_all

theorem gen_no_send_after_stop1 (s s' : GenState)
    (hrt : Relation.ReflTransGen GenStep s s') (hinv : GenInv s)
    (hret : s.stop1 = StopPC.returned) :
    s'.gen ≠ GenPC.send ∧ s'.stop1 = StopPC.returned ∧ GenInv s' := by
  induction hrt with
  | refl => exact ⟨hinv.2.2.1 hret, hret, hinv⟩
  | tail hab hbc ih =>
    obtain ⟨_, hb2, hb3⟩ := ih
    have hinv' := genInv_step _ _ hb3 hbc
    have hret' := genStop1_mono _ _ hbc hb2
    exact ⟨hinv'.2.2.1 hret', hret', hinv'⟩

theorem gen_closes_after_stop1 (s : GenState) (hinv : GenInv s)
    (hret : s.stop1 = StopPC.returned) :
    ∃ s', Relation.ReflTransGen GenStep s s' ∧ s'.gen = GenPC.closed := by
  cases hgen : s.gen with
  | check =>
    refine ⟨_, Relation.ReflTransGen.single (GenStep.load s hgen), ?_⟩
    have hf := hinv.1 (by simp [hret])
    simp [hf]
  | send => exact absurd hgen (hinv.2.2.1 hret)
  | closed => exact ⟨s, Relation.ReflTransGen.refl, hgen⟩

theorem genStep_decreases (s s' : GenState) (hf : s.flag = false)
    (hstep : GenStep s s') : genMeasure s' < genMeasure s := by
  cases hstep <;> simp_all [genMeasure, stopWeight, genWeight] <;> omega

theorem genStop_progress (s : GenState)
    (h : s.stop1 = StopPC.recv ∨ s.stop2 = some StopPC.recv) :
    ∃ s', GenStep s s' := by
  cases hgen : s.gen with
  | check => exact ⟨_, GenStep.load s hgen⟩
  | send =>
    rcases h with h | h
    · exact ⟨_, GenStep.pair1 s hgen h⟩
    · exact ⟨_, GenStep.pair2 s hgen h⟩
  | closed =>
    rcases h with h | h
    · exact ⟨_, GenStep.closed1 s hgen h⟩
    · exact ⟨_, GenStep.closed2 s hgen h⟩

/-- Claim C6: after a stop call has returned, the flag is permanently
false and the generator can never again be blocked in a send, so any
subsequent receive on the output can only complete by observing the closed
channel (which is reached); with stop called exactly once, every state in
which the stop call is blocked in its receive has an enabled step and
every step strictly decreases the measure, so the stop call never
deadlocks; and with stop called twice (idempotence), the same progress and
boundedness holds for whichever stop call is still blocked. -/
theorem generate_stop_protocol :
    (∀ (o : Option StopPC) (s : GenState), (o = none ∨ o = some StopPC.idle) →
      GenReachable o s → s.stop1 = StopPC.returned →
        s.flag = false ∧
        (∀ s', Relation.ReflTransGen GenStep s s' → s'.gen ≠ GenPC.send) ∧
        (∃ s', Relation.ReflTransGen GenStep s s' ∧ s'.gen = GenPC.closed)) ∧
    (∀ s : GenState, GenReachable none s → s.stop1 = StopPC.recv →
      (∃ s', GenStep s s') ∧ ∀ s', GenStep s s' → genMeasure s' < genMeasure s) ∧
    (∀ s : GenState, GenReachable (some StopPC.idle) s →
      (s.stop1 = StopPC.recv ∨ s.stop2 = some StopPC.recv) →
      (∃ s', GenStep s s') ∧ ∀ s', GenStep s s' → genMeasure s' < genMeasure s) := by
  refine ⟨?_, ?_, ?_⟩
  · intro o s ho hreach hret
    have hinv := genInv_reachable o ho s hreach
    refine ⟨hinv.1 (by simp [hret]), ?_, ?_⟩
    · intro s' hrt
      exact (gen_no_send_after_stop1 s s' hrt hinv hret).1
    · exact gen_closes_after_stop1 s hinv hret
  · intro s hreach hrecv
    have hinv := genInv_reachable none (Or.inl rfl) s hreach
    have hf : s.flag = false := hinv.1 (by simp [hrecv])
    exact ⟨genStop_progress s (Or.inl hrecv), fun s' hstep => genStep_decreases s s' hf hstep⟩
  · intro s hreach hrecv
    have hinv := genInv_reachable (some StopPC.idle) (Or.inr rfl) s hreach
    have hf : s.flag = false := by
      rcases hrecv with h | h
      · exact hinv.1 (by simp [h])
      · exact hinv.2.1 (Or.inl h)
    exact ⟨genStop_progress s hrecv, fun s' hstep => genStep_decreases s s' hf hstep⟩

/-- Witness for claim C6: a concrete run of Generate in which stop is
called once and returns (store, generator loads false and closes, stop
receives on the closed channel); the theorem applies to it, and to the
intermediate blocked-receive state, and to a two-stop run. -/
theorem generate_stop_protocol_witness :
    ((⟨false, GenPC.closed, StopPC.returned, none⟩ : GenState).flag = false ∧
      (∃ s', Relation.ReflTransGen GenStep
        (⟨false, GenPC.closed, StopPC.returned, none⟩ : GenState) s' ∧
          s'.gen = GenPC.closed)) ∧
    (∃ s', GenStep (⟨false, GenPC.closed, StopPC.recv, none⟩ : GenState) s') ∧
    (∃ s', GenStep (⟨false, GenPC.check, StopPC.recv, some StopPC.idle⟩ : GenState) s') := by
  have h0 : GenReachable none (genInit none) := Relation.ReflTransGen.refl
  have h1 := h0.tail (GenStep.store1 (genInit none) rfl)
  have h2 := h1.tail (GenStep.load _ rfl)
  have h2' : GenReachable none (⟨false, GenPC.closed, StopPC.recv, none⟩ : GenState) := h2
  have h3 := h2'.tail (GenStep.closed1 _ rfl rfl)
  have h3' : GenReachable none (⟨false, GenPC.closed, StopPC.returned, none⟩ : GenState) := h3
  have ha := generate_stop_protocol.1 none _ (Or.inl rfl) h3' rfl
  have hb := generate_stop_protocol.2.1 _ h2' rfl
  have g0 : GenReachable (some StopPC.idle) (genInit (some StopPC.idle)) :=
    Relation.ReflTransGen.refl
  have g1 := g0.tail (GenStep.store1 (genInit (some StopPC.idle)) rfl)
  have g1' : GenReachable (some StopPC.idle)
      (⟨false, GenPC.check, StopPC.recv, some StopPC.idle⟩ : GenState) := g1
  have hc := generate_stop_protocol.2.2 _ g1' (Or.inl rfl)
  exact ⟨⟨ha.1, ha.2.2⟩, hb.1, hc.1⟩

end Functional
